import Mathlib

/-!
Shallow embedding of the Binary-Options-Winrate-Analyzer repository
(`src/analyzer/utils.py`, `src/analyzer/statistics.py`,
`src/analyzer/data_processor.py`, `src/main.py`) together with proofs about
the embedded operations.

DataFrames are modelled as Lean lists of rows, the Python `float` money
amounts as rationals, and opening times as natural numbers.
`pandas.sort_values` is modelled by a stable insertion sort; for the key
orders used by the code the sorted sequence of keys is the same.
-/

namespace BOWA

/-! ## Sorting infrastructure (model of `pandas.sort_values`) -/

/-- Insert `a` in front of the first element `b` of `l` with `le a b`. -/
def insertLe {α : Type} (le : α → α → Bool) (a : α) : List α → List α
  | [] => [a]
  | b :: t => if le a b then a :: b :: t else b :: insertLe le a t

/-- Insertion sort by the boolean comparator `le`. -/
def sortLe {α : Type} (le : α → α → Bool) : List α → List α
  | [] => []
  | a :: t => insertLe le a (sortLe le t)

theorem insertLe_perm {α : Type} (le : α → α → Bool) (a : α) (l : List α) :
    (insertLe le a l).Perm (a :: l) := by
  induction l with
  | nil => simp [insertLe]
  | cons b t ih =>
    by_cases h : le a b = true
    · simp [insertLe, h]
    · simp only [insertLe, h, Bool.false_eq_true, if_false]
      exact (ih.cons b).trans (List.Perm.swap a b t)

theorem sortLe_perm {α : Type} (le : α → α → Bool) (l : List α) :
    (sortLe le l).Perm l := by
  induction l with
  | nil => simp [sortLe]
  | cons a t ih =>
    exact (insertLe_perm le a (sortLe le t)).trans (ih.cons a)

theorem insertLe_pairwise {α : Type} {le : α → α → Bool}
    (htot : ∀ a b, le a b = false → le b a = true)
    (htrans : ∀ a b c, le a b = true → le b c = true → le a c = true)
    (a : α) {l : List α} (hl : l.Pairwise (fun x y => le x y = true)) :
    (insertLe le a l).Pairwise (fun x y => le x y = true) := by
  induction l with
  | nil => simp [insertLe]
  | cons b t ih =>
    rw [List.pairwise_cons] at hl
    obtain ⟨hb, ht⟩ := hl
    by_cases h : le a b = true
    · simp only [insertLe, h, if_true]
      refine List.Pairwise.cons ?_ (List.Pairwise.cons hb ht)
      intro x hx
      rcases List.mem_cons.mp hx with rfl | hx
      · exact h
      · exact htrans a b x h (hb x hx)
    · simp only [insertLe, h, Bool.false_eq_true, if_false]
      refine List.Pairwise.cons ?_ (ih ht)
      intro x hx
      rcases List.mem_cons.mp ((insertLe_perm le a t).mem_iff.mp hx) with rfl | hx
      · exact htot _ _ (by simpa using h)
      · exact hb x hx

theorem sortLe_pairwise {α : Type} {le : α → α → Bool}
    (htot : ∀ a b, le a b = false → le b a = true)
    (htrans : ∀ a b c, le a b = true → le b c = true → le a c = true)
    (l : List α) : (sortLe le l).Pairwise (fun x y => le x y = true) := by
  induction l with
  | nil => simp [sortLe]
  | cons a t ih => exact insertLe_pairwise htot htrans a ih

/-! ## `calculate_max_streak` (`src/analyzer/utils.py`, lines 28-49)

The code marks a new group at every change of `Результат`
(`(df["Результат"] != df["Результат"].shift()).cumsum()`), so the groups are
exactly the maximal runs of equal consecutive values: a run-length encoding
of the column. -/

/-- Run-length encoding of the result column: one `(value, length)` entry per
maximal group of equal consecutive values. -/
def rle : List String → List (String × Nat)
  | [] => []
  | x :: xs =>
    match rle xs with
    | [] => [(x, 1)]
    | (y, n) :: rest => if x = y then (x, n + 1) :: rest else (x, 1) :: (y, n) :: rest

/-- `Series.max()` over natural numbers with `0` for the empty series. -/
def natListMax : List Nat → Nat
  | [] => 0
  | a :: t => max a (natListMax t)

/-- Embeds `calculate_max_streak`: within each group the sum of the indicator
`Результат == result_type` is the group length when the group carries
`result_type` and `0` otherwise; the function returns the maximum of these
sums, `0` when the frame is empty (`streaks.empty`). -/
def calculate_max_streak (results : List String) (result_type : String) : Nat :=
  natListMax ((rle results).map (fun p => if p.1 = result_type then p.2 else 0))

/-- Specification-side: length of the run of values equal to `t` at the head. -/
def leadRun (t : String) : List String → Nat
  | [] => 0
  | x :: xs => if x = t then leadRun t xs + 1 else 0

/-- Specification-side: length of the longest run of consecutive values equal
to `t` (the maximum over all start positions of the run length there). -/
def longestRun (t : String) : List String → Nat
  | [] => 0
  | x :: xs => max (leadRun t (x :: xs)) (longestRun t xs)

theorem rle_nil_iff (l : List String) : rle l = [] ↔ l = [] := by
  cases l with
  | nil => simp [rle]
  | cons x xs =>
    simp only [rle]
    constructor
    · intro h
      rcases hr : rle xs with _ | ⟨⟨y, n⟩, rest⟩
      · rw [hr] at h; simp at h
      · rw [hr] at h
        by_cases hxy : x = y
        · simp [hxy] at h
        · simp [hxy] at h
    · intro h; cases h

theorem rle_head_cons {l : List String} {y : String} {n : Nat}
    {rest : List (String × Nat)} (h : rle l = (y, n) :: rest) :
    ∃ t, l = y :: t := by
  cases l with
  | nil => simp [rle] at h
  | cons x xs =>
    refine ⟨xs, ?_⟩
    have hx : x = y := by
      rcases hr : rle xs with _ | ⟨⟨z, m⟩, r2⟩ <;> simp only [rle, hr] at h
      · simp only [List.cons.injEq, Prod.mk.injEq] at h
        exact h.1.1
      · split_ifs at h with hxz <;>
          simp only [List.cons.injEq, Prod.mk.injEq] at h <;> exact h.1.1
    rw [hx]

theorem rle_head_leadRun : ∀ {l : List String} {y : String} {n : Nat}
    {rest : List (String × Nat)}, rle l = (y, n) :: rest → leadRun y l = n := by
  intro l
  induction l with
  | nil => intro y n rest h; simp [rle] at h
  | cons x xs ih =>
    intro y n rest h
    rcases hr : rle xs with _ | ⟨⟨z, m⟩, r2⟩ <;> simp only [rle, hr] at h
    · have hxs : xs = [] := (rle_nil_iff xs).mp hr
      subst hxs
      simp only [List.cons.injEq, Prod.mk.injEq] at h
      obtain ⟨⟨rfl, rfl⟩, -⟩ := h
      simp [leadRun]
    · split_ifs at h with hxz
      · simp only [List.cons.injEq, Prod.mk.injEq] at h
        obtain ⟨⟨rfl, rfl⟩, -⟩ := h
        subst hxz
        have hm := ih hr
        simp [leadRun, hm]
      · simp only [List.cons.injEq, Prod.mk.injEq] at h
        obtain ⟨⟨rfl, rfl⟩, -⟩ := h
        obtain ⟨t2, ht2⟩ := rle_head_cons hr
        subst ht2
        have hzx : ¬ z = x := fun hh => hxz hh.symm
        simp [leadRun, hzx]

theorem calculate_max_streak_eq_longestRun (l : List String) (t : String) :
    calculate_max_streak l t = longestRun t l := by
  induction l with
  | nil => rfl
  | cons x xs ih =>
    rcases hr : rle xs with _ | ⟨⟨z, m⟩, r2⟩
    · have hxs : xs = [] := (rle_nil_iff xs).mp hr
      subst hxs
      by_cases hxt : x = t <;>
        simp [calculate_max_streak, rle, longestRun, leadRun, natListMax, hxt]
    · obtain ⟨t2, ht2⟩ := rle_head_cons hr
      by_cases hxz : x = z
      · subst hxz
        have hlead : leadRun x xs = m := rle_head_leadRun hr
        have hL : calculate_max_streak (x :: xs) t =
            max (if x = t then m + 1 else 0)
              (natListMax (r2.map (fun p => if p.1 = t then p.2 else 0))) := by
          simp [calculate_max_streak, rle, hr, natListMax]
        have hXs : calculate_max_streak xs t =
            max (if x = t then m else 0)
              (natListMax (r2.map (fun p => if p.1 = t then p.2 else 0))) := by
          simp [calculate_max_streak, hr, natListMax]
        have hRun : longestRun t (x :: xs) =
            max (leadRun t (x :: xs)) (longestRun t xs) := rfl
        by_cases hxt : x = t
        · subst hxt
          have h1 : leadRun x (x :: xs) = m + 1 := by simp [leadRun, hlead]
          rw [hL, hRun, h1, ← ih, hXs, if_pos rfl, if_pos rfl]
          omega
        · have h1 : leadRun t (x :: xs) = 0 := by simp [leadRun, hxt]
          rw [hL, hRun, h1, ← ih, hXs]
          simp [hxt]
      · have hL : calculate_max_streak (x :: xs) t =
            max (if x = t then 1 else 0) (calculate_max_streak xs t) := by
          simp [calculate_max_streak, rle, hr, hxz, natListMax]
        have hRun : longestRun t (x :: xs) =
            max (leadRun t (x :: xs)) (longestRun t xs) := rfl
        by_cases hxt : x = t
        · subst hxt
          have hzx : ¬ z = x := fun hh => hxz hh.symm
          have h1 : leadRun x (x :: xs) = 1 := by simp [leadRun, ht2, hzx]
          rw [hL, hRun, h1, ih, if_pos rfl]
        · have h1 : leadRun t (x :: xs) = 0 := by simp [leadRun, hxt]
          rw [hL, hRun, h1, ih]
          simp [hxt]

theorem longestRun_eq_zero_of_not_mem {t : String} {l : List String} (h : t ∉ l) :
    longestRun t l = 0 := by
  induction l with
  | nil => rfl
  | cons x xs ih =>
    have hx : ¬ x = t := fun hh => h (List.mem_cons.mpr (Or.inl hh.symm))
    have hxs : t ∉ xs := fun hh => h (List.mem_cons_of_mem x hh)
    simp [longestRun, leadRun, hx, ih hxs]

/-- **C1.** For every result column and every `result_type`,
`calculate_max_streak` returns the length of the longest run of consecutive
rows (in the frame's existing row order) whose `Результат` equals
`result_type`, and returns `0` when the frame is empty or no row matches
`result_type` (the empty frame has no matching row). -/
theorem C1_calculate_max_streak_spec (l : List String) (t : String) :
    calculate_max_streak l t = longestRun t l ∧
      (t ∉ l → calculate_max_streak l t = 0) := by
  refine ⟨calculate_max_streak_eq_longestRun l t, fun h => ?_⟩
  rw [calculate_max_streak_eq_longestRun l t]
  exact longestRun_eq_zero_of_not_mem h

/-- Witness for C1: a concrete frame with no `Win` row yields streak `0`. -/
theorem C1_witness : calculate_max_streak ["Loss", "Loss"] "Win" = 0 :=
  (C1_calculate_max_streak_spec ["Loss", "Loss"] "Win").2 (by decide)

/-! ## `preprocess_data` balance reconstruction
(`src/analyzer/data_processor.py`, lines 147-176) -/

/-- A trade row as seen by the balance computation: opening time
(`Время открытия`) and numeric profit (`Прибыль числом`). -/
structure BRow where
  time : Nat
  profit : ℚ

/-- A row of the returned `df_sorted` frame: time, numeric profit and the
reconstructed `Баланс`. -/
structure BRowB where
  time : Nat
  profit : ℚ
  bal : ℚ

/-- Walking the descending-sorted rows, `acc` is the profit accumulated by
`cumsum` so far; each row receives
`Баланс = current_balance - Кумулятивная прибыль`. -/
def attachBalance (current_balance : ℚ) : List BRow → ℚ → List BRowB
  | [], _ => []
  | r :: rs, acc =>
    { time := r.time, profit := r.profit, bal := current_balance - (acc + r.profit) } ::
      attachBalance current_balance rs (acc + r.profit)

/-- Embeds the balance part of `preprocess_data`: sort descending by
`Время открытия` (`df_sorted`), attach the reconstructed balance, then sort
ascending by `Время открытия` again for the plots. -/
def preprocess_balances (df : List BRow) (current_balance : ℚ) : List BRowB :=
  sortLe (fun a b => decide (a.time ≤ b.time))
    (attachBalance current_balance (sortLe (fun a b => decide (b.time ≤ a.time)) df) 0)

/-- The rows of `df` opened at time `t` or later. -/
def rowsFrom (t : Nat) (df : List BRow) : List BRow :=
  df.filter (fun r => decide (t ≤ r.time))

theorem attachBalance_map_time (bal : ℚ) :
    ∀ (l : List BRow) (acc : ℚ),
      (attachBalance bal l acc).map BRowB.time = l.map BRow.time := by
  intro l
  induction l with
  | nil => intro acc; rfl
  | cons r rs ih => intro acc; simp [attachBalance, ih]

theorem attachBalance_bal (bal : ℚ) :
    ∀ (l : List BRow) (acc : ℚ),
      l.Pairwise (fun a b => b.time ≤ a.time) →
      (l.map BRow.time).Nodup →
      ∀ e ∈ attachBalance bal l acc,
        e.bal = bal - (acc + ((rowsFrom e.time l).map BRow.profit).sum) := by
  intro l
  induction l with
  | nil => intro acc _ _ e he; simp [attachBalance] at he
  | cons r rs ih =>
    intro acc hpw hnd e he
    rw [List.pairwise_cons] at hpw
    obtain ⟨hr, hrs⟩ := hpw
    rw [List.map_cons, List.nodup_cons] at hnd
    obtain ⟨hrt, hnd2⟩ := hnd
    simp only [attachBalance] at he
    rcases List.mem_cons.mp he with rfl | he2
    · have hfil : rowsFrom r.time rs = [] := by
        rw [rowsFrom, List.filter_eq_nil_iff]
        intro s hs
        have h1 : s.time ≤ r.time := hr s hs
        have h2 : s.time ≠ r.time := by
          intro hh
          exact hrt (hh ▸ List.mem_map_of_mem BRow.time hs)
        simp only [decide_eq_true_eq]
        omega
      have : rowsFrom r.time (r :: rs) = [r] := by
        rw [rowsFrom, List.filter_cons, if_pos (by simp)]
        rw [rowsFrom] at hfil
        simp [hfil]
      simp [this]
    · have ht : e.time ∈ rs.map BRow.time := by
        have h0 : e.time ∈ (attachBalance bal rs (acc + r.profit)).map BRowB.time :=
          List.mem_map_of_mem BRowB.time he2
        rwa [attachBalance_map_time] at h0
      obtain ⟨s, hs, hst⟩ := List.mem_map.mp ht
      have hle : e.time ≤ r.time := hst ▸ hr s hs
      have hcons : rowsFrom e.time (r :: rs) = r :: rowsFrom e.time rs := by
        rw [rowsFrom, List.filter_cons, if_pos (by simpa using hle)]
        rfl
      have := ih (acc + r.profit) hrs hnd2 e he2
      rw [hcons, List.map_cons, List.sum_cons, this]
      ring

/-- **C2.** For every input frame with pairwise-distinct opening times and
every `current_balance`, the second frame returned by `preprocess_data` is
sorted ascending by `Время открытия`; every row's `Баланс` equals
`current_balance` minus the sum of `Прибыль числом` over that row and every
row with a later opening time; hence the earliest row's `Баланс` equals
`current_balance` minus the total profit of all trades. -/
theorem C2_preprocess_balances_spec (df : List BRow) (current_balance : ℚ)
    (hnd : (df.map BRow.time).Nodup) :
    ((preprocess_balances df current_balance).Pairwise (fun a b => a.time ≤ b.time)) ∧
    (∀ e ∈ preprocess_balances df current_balance,
        e.bal = current_balance - ((rowsFrom e.time df).map BRow.profit).sum) ∧
    (∀ e rest, preprocess_balances df current_balance = e :: rest →
        e.bal = current_balance - (df.map BRow.profit).sum) := by
  have htot2 : ∀ a b : BRowB, (decide (a.time ≤ b.time) : Bool) = false →
      (decide (b.time ≤ a.time) : Bool) = true := by
    intro a b h
    simp only [decide_eq_false_iff_not] at h
    simp only [decide_eq_true_eq]
    omega
  have htrans2 : ∀ a b c : BRowB, (decide (a.time ≤ b.time) : Bool) = true →
      (decide (b.time ≤ c.time) : Bool) = true →
      (decide (a.time ≤ c.time) : Bool) = true := by
    intro a b c h1 h2
    simp only [decide_eq_true_eq] at h1 h2 ⊢
    omega
  have htot1 : ∀ a b : BRow, (decide (b.time ≤ a.time) : Bool) = false →
      (decide (a.time ≤ b.time) : Bool) = true := by
    intro a b h
    simp only [decide_eq_false_iff_not] at h
    simp only [decide_eq_true_eq]
    omega
  have htrans1 : ∀ a b c : BRow, (decide (b.time ≤ a.time) : Bool) = true →
      (decide (c.time ≤ b.time) : Bool) = true →
      (decide (c.time ≤ a.time) : Bool) = true := by
    intro a b c h1 h2
    simp only [decide_eq_true_eq] at h1 h2 ⊢
    omega
  have hperm1 : (sortLe (fun a b : BRow => decide (b.time ≤ a.time)) df).Perm df :=
    sortLe_perm _ df
  have hdesc : (sortLe (fun a b : BRow => decide (b.time ≤ a.time)) df).Pairwise
      (fun a b => b.time ≤ a.time) :=
    (sortLe_pairwise htot1 htrans1 df).imp (fun h => by simpa using h)
  have hndS : ((sortLe (fun a b : BRow => decide (b.time ≤ a.time)) df).map
      BRow.time).Nodup :=
    ((hperm1.map BRow.time).nodup_iff).mpr hnd
  have hpermF : (preprocess_balances df current_balance).Perm
      (attachBalance current_balance
        (sortLe (fun a b : BRow => decide (b.time ≤ a.time)) df) 0) :=
    sortLe_perm _ _
  have hsortedF : (preprocess_balances df current_balance).Pairwise
      (fun a b => a.time ≤ b.time) :=
    (sortLe_pairwise htot2 htrans2 _).imp (fun h => by simpa using h)
  have hbal : ∀ e ∈ preprocess_balances df current_balance,
      e.bal = current_balance - ((rowsFrom e.time df).map BRow.profit).sum := by
    intro e he
    have he2 := hpermF.mem_iff.mp he
    have h1 := attachBalance_bal current_balance _ 0 hdesc hndS e he2
    have h2 : ((rowsFrom e.time
          (sortLe (fun a b : BRow => decide (b.time ≤ a.time)) df)).map
            BRow.profit).sum =
        ((rowsFrom e.time df).map BRow.profit).sum :=
      ((hperm1.filter _).map BRow.profit).sum_eq
    rw [h1, rowsFrom, rowsFrom] at *
    rw [h1, h2]
    ring
  refine ⟨hsortedF, hbal, ?_⟩
  intro e rest hcons
  have he : e ∈ preprocess_balances df current_balance := by
    rw [hcons]; exact List.mem_cons_self e rest
  have hball := hbal e he
  have hmapperm : ((preprocess_balances df current_balance).map BRowB.time).Perm
      (df.map BRow.time) := by
    have h1 := hpermF.map BRowB.time
    rw [attachBalance_map_time] at h1
    exact h1.trans (hperm1.map BRow.time)
  have hall : rowsFrom e.time df = df := by
    rw [rowsFrom, List.filter_eq_self]
    intro r hrdf
    simp only [decide_eq_true_eq]
    have hrt : r.time ∈ (preprocess_balances df current_balance).map BRowB.time :=
      hmapperm.mem_iff.mpr (List.mem_map_of_mem BRow.time hrdf)
    rw [hcons, List.map_cons] at hrt
    rcases List.mem_cons.mp hrt with heq | hmem
    · omega
    · obtain ⟨f, hf, hft⟩ := List.mem_map.mp hmem
      have hs2 := hsortedF
      rw [hcons, List.pairwise_cons] at hs2
      have := hs2.1 f hf
      omega
  rw [hball, hall]

/-- Witness for C2: a concrete two-trade frame with distinct opening times. -/
theorem C2_witness :
    (preprocess_balances [⟨2, -3⟩, ⟨1, 5⟩] 100).Pairwise (fun a b => a.time ≤ b.time) :=
  (C2_preprocess_balances_spec [⟨2, -3⟩, ⟨1, 5⟩] 100 (by decide)).1

/-! ## `calculate_main_metrics` (`src/analyzer/statistics.py`, lines 13-50) -/

/-- A processed trade row as used by the statistics: `Результат`,
`Прибыль числом` and `Валюта`. -/
structure MTrade where
  result : String
  profit : ℚ
  currency : String

/-- The dictionary returned by `calculate_main_metrics`; the `float('inf')`
profit factor is modelled by `none`. -/
structure Metrics where
  total_trades : Nat
  winrate : ℚ
  total_profit : ℚ
  profit_factor : Option ℚ
  avg_win : ℚ
  avg_loss : ℚ
  currency : String

/-- Embeds `calculate_main_metrics`. -/
def calculate_main_metrics (df : List MTrade) : Metrics :=
  let total_trades := df.length
  let wins := (df.filter (fun r => decide (r.result = "Win"))).length
  let winrate : ℚ :=
    if 0 < total_trades then (wins : ℚ) / (total_trades : ℚ) * 100 else 0
  let pos_profits := (df.filter (fun r => decide (0 < r.profit))).map MTrade.profit
  let neg_profits := (df.filter (fun r => decide (r.profit < 0))).map MTrade.profit
  { total_trades := total_trades
    winrate := winrate
    total_profit := (df.map MTrade.profit).sum
    profit_factor :=
      if neg_profits.isEmpty then none
      else some (pos_profits.sum / |neg_profits.sum|)
    avg_win :=
      if pos_profits.isEmpty then 0 else pos_profits.sum / (pos_profits.length : ℚ)
    avg_loss :=
      if neg_profits.isEmpty then 0 else |neg_profits.sum / (neg_profits.length : ℚ)|
    currency := match df with | [] => "USD" | r :: _ => r.currency }

/-- **C5.** `calculate_main_metrics` returns `total_trades` equal to the row
count and `winrate` equal to the `Win`-row count divided by `total_trades`
times `100` on a non-empty frame, and winrate `0` with currency `"USD"` on an
empty frame. -/
theorem C5_main_metrics_spec (df : List MTrade) :
    (calculate_main_metrics df).total_trades = df.length ∧
    (df ≠ [] → (calculate_main_metrics df).winrate =
      ((df.filter (fun r => decide (r.result = "Win"))).length : ℚ) /
        (df.length : ℚ) * 100) ∧
    (df = [] → (calculate_main_metrics df).winrate = 0 ∧
      (calculate_main_metrics df).currency = "USD") := by
  refine ⟨rfl, fun hne => ?_, fun he => ?_⟩
  · have hpos : 0 < df.length := List.length_pos.mpr hne
    simp [calculate_main_metrics, hpos]
  · subst he
    exact ⟨rfl, rfl⟩

/-- Witness for C5: the empty frame. -/
theorem C5_witness :
    (calculate_main_metrics []).winrate = 0 ∧
      (calculate_main_metrics []).currency = "USD" :=
  (C5_main_metrics_spec []).2.2 rfl

theorem sum_neg_of_all_neg : ∀ {l : List ℚ}, l ≠ [] → (∀ x ∈ l, x < 0) → l.sum < 0 := by
  intro l
  induction l with
  | nil => intro h; cases h rfl
  | cons a t ih =>
    intro _ hall
    rw [List.sum_cons]
    rcases eq_or_ne t [] with rfl | hne
    · simpa using hall a (List.mem_cons_self a [])
    · have ht := ih hne (fun x hx => hall x (List.mem_cons_of_mem a hx))
      have ha := hall a (List.mem_cons_self a t)
      linarith

/-- **C6.** `profit_factor` equals the sum of positive `Прибыль числом`
divided by the absolute value of the sum of the negative ones when a negative
value exists, and infinity (`none`) when none exists; the divisor is then
strictly positive, so the division is never by zero. -/
theorem C6_profit_factor_spec (df : List MTrade) :
    ((df.filter (fun r => decide (r.profit < 0))).map MTrade.profit = [] →
        (calculate_main_metrics df).profit_factor = none) ∧
    ((df.filter (fun r => decide (r.profit < 0))).map MTrade.profit ≠ [] →
        (calculate_main_metrics df).profit_factor =
          some ((((df.filter (fun r => decide (0 < r.profit))).map MTrade.profit).sum) /
            |((df.filter (fun r => decide (r.profit < 0))).map MTrade.profit).sum|) ∧
        0 < |((df.filter (fun r => decide (r.profit < 0))).map MTrade.profit).sum|) := by
  constructor
  · intro h
    simp [calculate_main_metrics, h]
  · intro h
    have hallneg : ∀ x ∈ (df.filter (fun r => decide (r.profit < 0))).map MTrade.profit,
        x < 0 := by
      intro x hx
      obtain ⟨r, hr, hrx⟩ := List.mem_map.mp hx
      have h2 := (List.mem_filter.mp hr).2
      simp only [decide_eq_true_eq] at h2
      exact hrx ▸ h2
    have hsum : ((df.filter (fun r => decide (r.profit < 0))).map MTrade.profit).sum < 0 :=
      sum_neg_of_all_neg h hallneg
    have habs : 0 < |((df.filter (fun r => decide (r.profit < 0))).map MTrade.profit).sum| :=
      abs_pos.mpr (ne_of_lt hsum)
    refine ⟨?_, habs⟩
    have hie : ¬ ((df.filter (fun r => decide (r.profit < 0))).map
        MTrade.profit).isEmpty = true := by
      simpa [List.isEmpty_iff] using h
    simp [calculate_main_metrics, hie]

/-- Witness for C6: one losing trade of profit `-2`; the profit factor is a
finite value and the divisor is positive. -/
theorem C6_witness :
    (calculate_main_metrics [⟨"Loss", (-2 : ℚ), "USD"⟩]).profit_factor = some 0 := by
  have h := (C6_profit_factor_spec [⟨"Loss", (-2 : ℚ), "USD"⟩]).2 (by norm_num)
  rw [h.1]
  norm_num

/-! ## Result classification (`src/analyzer/data_processor.py`, line 162 and
`src/main.py`, line 152) -/

/-- Embeds the lambda `'Win' if x > 0 else 'Loss'` applied to `Прибыль`. -/
def classifyResult (profit : ℚ) : String :=
  if 0 < profit then "Win" else "Loss"

/-- Length of the run of values equal to `t` at the tail of the list. -/
def trailRun (t : String) (l : List String) : Nat :=
  leadRun t l.reverse

theorem trailRun_append_same (t : String) (l : List String) :
    trailRun t (l ++ [t]) = trailRun t l + 1 := by
  simp [trailRun, leadRun, List.reverse_append]

/-- **C10.** After preprocessing every `Результат` is `"Win"` or `"Loss"`; a
trade with `Прибыль ≤ 0` — including break-even trades with profit exactly
zero — is classified `"Loss"`, so a break-even trade enters the winrate
denominator without entering the `Win` count and extends the trailing loss
streak by one. -/
theorem C10_breakeven_is_loss (p : ℚ) (profits : List ℚ) (df : List MTrade)
    (c : String) :
    (classifyResult p = "Win" ∨ classifyResult p = "Loss") ∧
    (p ≤ 0 → classifyResult p = "Loss") ∧
    (trailRun "Loss" (profits.map classifyResult ++ [classifyResult 0]) =
      trailRun "Loss" (profits.map classifyResult) + 1) ∧
    ((calculate_main_metrics (df ++ [(⟨classifyResult 0, 0, c⟩ : MTrade)])).total_trades =
      (calculate_main_metrics df).total_trades + 1) ∧
    ((df ++ [(⟨classifyResult 0, 0, c⟩ : MTrade)]).filter (fun r => decide (r.result = "Win")) =
      df.filter (fun r => decide (r.result = "Win"))) := by
  have hzero : classifyResult 0 = "Loss" := by
    simp [classifyResult]
  refine ⟨?_, fun hp => ?_, ?_, ?_, ?_⟩
  · by_cases h : 0 < p
    · exact Or.inl (by simp [classifyResult, h])
    · exact Or.inr (by simp [classifyResult, h])
  · have h : ¬ 0 < p := not_lt.mpr hp
    simp [classifyResult, h]
  · rw [hzero]
    exact trailRun_append_same "Loss" (profits.map classifyResult)
  · simp [calculate_main_metrics]
  · rw [List.filter_append]
    have : ([(⟨classifyResult 0, 0, c⟩ : MTrade)] : List MTrade).filter
        (fun r => decide (r.result = "Win")) = [] := by
      simp [hzero]
    simp [this]

/-- Witness for C10: the break-even trade itself is classified `"Loss"`. -/
theorem C10_witness : classifyResult 0 = "Loss" :=
  (C10_breakeven_is_loss 0 [] [] "USD").2.1 le_rfl

/-! ## `apply_otc_filter` (`src/analyzer/data_processor.py`, lines 125-131) -/

/-- A raw trade row as seen by the OTC filter: the `Актив` cell (possibly
missing, like a `NaN` in pandas) plus an opaque payload standing for the
other columns. -/
structure ORow where
  asset : Option String
  payload : Nat

/-- `pat` is a prefix of the character list. -/
def hasPre : List Char → List Char → Bool
  | [], _ => true
  | _ :: _, [] => false
  | a :: ps, b :: bs => if a = b then hasPre ps bs else false

/-- The character list contains `pat` as a contiguous substring
(`str.contains` with a plain pattern). -/
def containsSeq (pat : List Char) : List Char → Bool
  | [] => hasPre pat []
  | c :: t => hasPre pat (c :: t) || containsSeq pat t

/-- `df["Актив"].str.contains("OTC", na=False)`: missing values count as
`False`. -/
def otcPred (r : ORow) : Bool :=
  match r.asset with
  | none => false
  | some s => containsSeq "OTC".data s.data

/-- Embeds `apply_otc_filter`. -/
def apply_otc_filter (df : List ORow) (filter_choice : String) : List ORow :=
  if filter_choice = "1" then df.filter otcPred
  else if filter_choice = "2" then df.filter (fun r => ! otcPred r)
  else df

theorem hasPre_iff : ∀ (pat l : List Char), hasPre pat l = true ↔ ∃ l2, l = pat ++ l2 := by
  intro pat
  induction pat with
  | nil => intro l; simp [hasPre]
  | cons a ps ih =>
    intro l
    cases l with
    | nil => simp [hasPre]
    | cons b bs =>
      by_cases hab : a = b
      · subst hab
        simp only [hasPre, if_pos rfl, List.cons_append, List.cons.injEq, true_and]
        exact (ih bs).trans (by simp)
      · simp only [hasPre, if_neg hab, List.cons_append, List.cons.injEq]
        constructor
        · intro h; cases h
        · rintro ⟨l2, hb, -⟩
          exact absurd hb.symm hab

theorem containsSeq_iff (pat : List Char) :
    ∀ l : List Char, containsSeq pat l = true ↔ ∃ l1 l2, l = l1 ++ pat ++ l2 := by
  intro l
  induction l with
  | nil =>
    simp only [containsSeq, hasPre_iff]
    constructor
    · rintro ⟨l2, h2⟩
      obtain ⟨hp, hl2⟩ := List.append_eq_nil.mp h2.symm
      exact ⟨[], l2, by simp [hp, hl2]⟩
    · rintro ⟨l1, l2, h⟩
      rw [List.append_assoc] at h
      obtain ⟨h1, h2⟩ := List.append_eq_nil.mp h.symm
      obtain ⟨hp, hl2⟩ := List.append_eq_nil.mp h2
      exact ⟨[], by simp [hp]⟩
  | cons c t ih =>
    simp only [containsSeq, Bool.or_eq_true]
    constructor
    · rintro (h | h)
      · obtain ⟨l2, h2⟩ := (hasPre_iff pat (c :: t)).mp h
        exact ⟨[], l2, by simpa using h2⟩
      · obtain ⟨l1, l2, h2⟩ := ih.mp h
        exact ⟨c :: l1, l2, by simp [h2]⟩
    · rintro ⟨l1, l2, h⟩
      cases l1 with
      | nil =>
        left
        exact (hasPre_iff pat (c :: t)).mpr ⟨l2, by simpa using h⟩
      | cons d ds =>
        right
        refine ih.mpr ⟨ds, l2, ?_⟩
        have := (List.cons.injEq _ _ _ _ ▸ h)
        simpa using this.2

/-- Specification-side: the row's `Актив` is present and contains the
substring `"OTC"`. -/
def AssetHasOTC (r : ORow) : Prop :=
  ∃ s l1 l2, r.asset = some s ∧ s.data = l1 ++ "OTC".data ++ l2

theorem otcPred_iff (r : ORow) : otcPred r = true ↔ AssetHasOTC r := by
  rcases hra : r.asset with _ | s
  · simp only [otcPred, hra, AssetHasOTC]
    constructor
    · intro h; cases h
    · rintro ⟨s, l1, l2, hs, -⟩
      exact Option.noConfusion hs
  · simp only [otcPred, hra, AssetHasOTC, containsSeq_iff]
    constructor
    · rintro ⟨l1, l2, h⟩
      exact ⟨s, l1, l2, rfl, h⟩
    · rintro ⟨s2, l1, l2, hs, h⟩
      have h3 : s = s2 := Option.some.inj hs
      rw [← h3] at h
      exact ⟨l1, l2, h⟩

theorem filter_not_partition {α : Type} (p : α → Bool) (l : List α) :
    (l.filter p ++ l.filter (fun x => ! p x)).Perm l := by
  induction l with
  | nil => simp
  | cons a t ih =>
    by_cases h : p a = true
    · simp only [List.filter_cons, h, Bool.not_true, if_pos, Bool.false_eq_true, if_false]
      simpa using ih.cons a
    · have h2 : p a = false := by simpa using h
      simp only [List.filter_cons, h2, Bool.not_false, Bool.false_eq_true, if_false, if_pos]
      exact List.perm_middle.trans (ih.cons a)

/-- **C8.** `apply_otc_filter` with `"1"` keeps exactly the rows whose
`Актив` contains the substring `"OTC"`, with `"2"` exactly the remaining rows
(rows with a missing `Актив` value go to the `"2"` result), and with `"3"`
returns the frame unchanged; consequently the `"1"` and `"2"` results are
disjoint and together are a permutation of the frame. -/
theorem C8_apply_otc_filter_spec (df : List ORow) :
    (∀ r, r ∈ apply_otc_filter df "1" ↔ r ∈ df ∧ AssetHasOTC r) ∧
    (∀ r, r ∈ apply_otc_filter df "2" ↔ r ∈ df ∧ ¬ AssetHasOTC r) ∧
    (∀ r ∈ df, r.asset = none → r ∈ apply_otc_filter df "2") ∧
    apply_otc_filter df "3" = df ∧
    (∀ r, ¬ (r ∈ apply_otc_filter df "1" ∧ r ∈ apply_otc_filter df "2")) ∧
    (apply_otc_filter df "1" ++ apply_otc_filter df "2").Perm df := by
  have h1 : apply_otc_filter df "1" = df.filter otcPred := by
    simp [apply_otc_filter]
  have h2 : apply_otc_filter df "2" = df.filter (fun r => ! otcPred r) := by
    simp [apply_otc_filter]
  have h3 : apply_otc_filter df "3" = df := by
    simp [apply_otc_filter]
  have hm1 : ∀ r, r ∈ apply_otc_filter df "1" ↔ r ∈ df ∧ AssetHasOTC r := by
    intro r
    rw [h1, List.mem_filter, otcPred_iff]
  have hm2 : ∀ r, r ∈ apply_otc_filter df "2" ↔ r ∈ df ∧ ¬ AssetHasOTC r := by
    intro r
    rw [h2, List.mem_filter]
    constructor
    · rintro ⟨hd, hp⟩
      refine ⟨hd, fun hc => ?_⟩
      have hc2 := (otcPred_iff r).mpr hc
      simp [hc2] at hp
    · rintro ⟨hd, hp⟩
      refine ⟨hd, ?_⟩
      have hof : otcPred r = false := by
        cases hob : otcPred r
        · rfl
        · exact absurd ((otcPred_iff r).mp hob) hp
      simp [hof]
  refine ⟨hm1, hm2, ?_, h3, ?_, ?_⟩
  · intro r hr hnone
    refine (hm2 r).mpr ⟨hr, ?_⟩
    rintro ⟨s, l1, l2, hs, -⟩
    rw [hnone] at hs
    exact Option.noConfusion hs
  · intro r hr
    exact ((hm2 r).mp hr.2).2 ((hm1 r).mp hr.1).2
  · rw [h1, h2]
    exact filter_not_partition otcPred df

/-- Witness for C8: a concrete OTC row passes the `"1"` filter. -/
theorem C8_witness :
    (⟨some "EURUSD OTC", 0⟩ : ORow) ∈ apply_otc_filter [⟨some "EURUSD OTC", 0⟩] "1" :=
  ((C8_apply_otc_filter_spec [⟨some "EURUSD OTC", 0⟩]).1 _).mpr
    ⟨List.mem_cons_self _ _, "EURUSD OTC", "EURUSD ".data, [], rfl, by decide⟩

/-! ## `get_exchange_rate` and the module-level rate cache
(`src/analyzer/data_processor.py`, lines 20-23 and 206-235) -/

/-- The module-level `_exchange_rate_cache`: an association list from
uppercased `(base, target)` pairs to `(rate, timestamp)`; time in seconds. -/
abbrev RateCache := List ((String × String) × (ℚ × Nat))

/-- `_CACHE_TTL = timedelta(minutes=5)`, in seconds. -/
def CACHE_TTL : Nat := 300

/-- Python's `str.upper()` (ASCII). -/
def upperStr (s : String) : String := String.mk (s.data.map Char.toUpper)

/-- `dict` assignment `cache[key] = value`. -/
def dictSet (key : String × String) (v : ℚ × Nat) : RateCache → RateCache
  | [] => [(key, v)]
  | e :: t => if e.1 = key then (key, v) :: t else e :: dictSet key v t

/-- Embeds `get_exchange_rate`.  The network request
(`requests.get(...)`, `data["rates"].get(...)`) is modelled by the oracle
`fetch`, mapping the uppercased base and target currencies to the rate the
API reports (`none` models any failure); `now` is the current time in
seconds.  The call returns the rate (or `none`) together with the new state
of the module-level cache. -/
def get_exchange_rate (fetch : String → String → Option ℚ) (now : Nat)
    (cache : RateCache) (base_currency target_currency : String) :
    Option ℚ × RateCache :=
  let key := (upperStr base_currency, upperStr target_currency)
  let fetched :=
    match fetch (upperStr base_currency) (upperStr target_currency) with
    | some rate => (some rate, dictSet key (rate, now) cache)
    | none => (none, cache)
  match cache.find? (fun e => decide (e.1 = key)) with
  | some e => if now - e.2.2 < CACHE_TTL then (some e.2.1, cache) else fetched
  | none => fetched

/-- **C3 counterexample.** The claim that no computed result is stored for
reuse fails on `get_exchange_rate`: at the concrete input below the first
call (a cache miss with a successful fetch of rate `75`) changes the
module-level cache from `[]` to a non-empty state, and a second call for the
same currencies `100` seconds later returns `75` — the first call's stored
result — even though the network oracle now reports `80`, so the second
result is not computed independently of the first call. -/
theorem C3_counterexample :
    (get_exchange_rate (fun _ _ => some 75) 0 [] "USD" "RUB").2 ≠ [] ∧
    (get_exchange_rate (fun _ _ => some 80) 100
        (get_exchange_rate (fun _ _ => some 75) 0 [] "USD" "RUB").2 "USD" "RUB").1 =
      some 75 ∧
    (some (75 : ℚ) ≠ some 80) := by
  refine ⟨?_, ?_, by norm_num⟩
  · decide
  · decide

/-- **C3 amended.** `get_exchange_rate` maintains the module-level cache with
a 5-minute TTL: when the cache holds an entry for the uppercased currency
pair younger than the TTL, the call returns the cached rate and leaves the
cache unchanged without consulting the network (the result is identical for
every network oracle); on a cache miss, a successful fetch stores the fetched
rate with the current timestamp in the cache. -/
theorem C3_cache_behaviour (fetch fetch2 : String → String → Option ℚ)
    (now ts : Nat) (cache : RateCache) (base target : String) (rate : ℚ) :
    (cache.find? (fun e => decide (e.1 = (upperStr base, upperStr target))) =
        some ((upperStr base, upperStr target), (rate, ts)) →
      now - ts < CACHE_TTL →
      get_exchange_rate fetch now cache base target = (some rate, cache) ∧
      get_exchange_rate fetch now cache base target =
        get_exchange_rate fetch2 now cache base target) ∧
    (cache.find? (fun e => decide (e.1 = (upperStr base, upperStr target))) = none →
      fetch (upperStr base) (upperStr target) = some rate →
      get_exchange_rate fetch now cache base target =
        (some rate, dictSet (upperStr base, upperStr target) (rate, now) cache)) := by
  constructor
  · intro hfind hfresh
    constructor
    · simp only [get_exchange_rate, hfind]
      rw [if_pos hfresh]
    · simp only [get_exchange_rate, hfind]
      rw [if_pos hfresh, if_pos hfresh]
  · intro hfind hfetch
    simp only [get_exchange_rate, hfind, hfetch]

/-- Witness for the amended C3 theorem: a fresh cached entry is returned
unchanged even though the network oracle fails. -/
theorem C3_witness :
    get_exchange_rate (fun _ _ => none) 100 [(("USD", "RUB"), ((75 : ℚ), 0))]
        "USD" "RUB" =
      (some 75, [(("USD", "RUB"), ((75 : ℚ), 0))]) :=
  ((C3_cache_behaviour (fun _ _ => none) (fun _ _ => some 1) 100 0
      [(("USD", "RUB"), ((75 : ℚ), 0))] "USD" "RUB" 75).1
    (by decide) (by decide)).1

/-! ## `handle_currency_conversion`
(`src/analyzer/data_processor.py`, lines 238-309) -/

/-- A trade row as seen by the currency conversion: the `Валюта` cell
(possibly missing), `Прибыль числом`, `Размер сделки`, and an opaque payload
for the other columns. -/
structure CRow where
  currency : Option String
  profit : ℚ
  size : ℚ
  payload : Nat

/-- `Series.unique()`: first occurrences, in order of appearance. -/
def uniqAux (seen : List String) : List String → List String
  | [] => []
  | x :: xs => if x ∈ seen then uniqAux seen xs else x :: uniqAux (x :: seen) xs

/-- `df["Валюта"].dropna().unique()`. -/
def uniqueCurrencies (df : List CRow) : List String :=
  uniqAux [] (df.filterMap CRow.currency)

/-- The `rates` dictionary built by the conversion loop: the chosen target
currency gets `1.0`, every other currency the (confirmed or manually entered)
rate produced by `_get_rate_for_currency`, modelled by the oracle `getRate`. -/
def buildRates (getRate : String → String → ℚ) (target : String)
    (currencies : List String) : List (String × ℚ) :=
  currencies.map (fun c => (c, if c = target then 1 else getRate target c))

/-- `rates.get(row["Валюта"], 1.0)`. -/
def rateLookup (rates : List (String × ℚ)) : Option String → ℚ
  | none => 1
  | some c =>
    match rates.find? (fun p => decide (p.1 = c)) with
    | some p => p.2
    | none => 1

/-- Embeds `handle_currency_conversion`.  The interactive target choice
(`_ask_target_currency`) is modelled by the oracle `chooseTarget` and the
rate determination (`_get_rate_for_currency`) by the oracle `getRate`. -/
def handle_currency_conversion (chooseTarget : List String → String)
    (getRate : String → String → ℚ) (df : List CRow) : List CRow :=
  let currencies := uniqueCurrencies df
  if currencies.length ≤ 1 then df
  else
    let target := chooseTarget currencies
    let rates := buildRates getRate target currencies
    df.map (fun r =>
      { r with
          profit := r.profit / rateLookup rates r.currency
          size := r.size / rateLookup rates r.currency
          currency := some target })

/-- Specification-side per-row rate: the target currency gets `1.0`, any
other currency the oracle rate, a missing currency the dictionary default
`1.0`. -/
def specRate (getRate : String → String → ℚ) (target : String) :
    Option String → ℚ
  | none => 1
  | some c => if c = target then 1 else getRate target c

theorem uniqAux_mem : ∀ (l seen : List String) (x : String),
    x ∈ uniqAux seen l ↔ x ∈ l ∧ x ∉ seen := by
  intro l
  induction l with
  | nil => intro seen x; simp [uniqAux]
  | cons a t ih =>
    intro seen x
    simp only [uniqAux]
    by_cases ha : a ∈ seen
    · rw [if_pos ha, ih]
      simp only [List.mem_cons]
      constructor
      · rintro ⟨hx, hns⟩
        exact ⟨Or.inr hx, hns⟩
      · rintro ⟨hx | hx, hns⟩
        · exact absurd (hx ▸ ha) hns
        · exact ⟨hx, hns⟩
    · rw [if_neg ha]
      simp only [List.mem_cons, ih]
      constructor
      · rintro (rfl | ⟨hx, hns⟩)
        · exact ⟨Or.inl rfl, ha⟩
        · exact ⟨Or.inr hx, fun hh => hns (Or.inr hh)⟩
      · rintro ⟨rfl | hx, hns⟩
        · exact Or.inl rfl
        · by_cases hxa : x = a
          · exact Or.inl hxa
          · refine Or.inr ⟨hx, fun hh => ?_⟩
            rcases hh with h | h
            · exact hxa h
            · exact hns h

theorem uniqAux_nodup : ∀ (l seen : List String), (uniqAux seen l).Nodup := by
  intro l
  induction l with
  | nil => intro seen; simp [uniqAux]
  | cons a t ih =>
    intro seen
    simp only [uniqAux]
    by_cases ha : a ∈ seen
    · rw [if_pos ha]; exact ih seen
    · rw [if_neg ha]
      refine List.nodup_cons.mpr ⟨?_, ih (a :: seen)⟩
      intro hc
      exact ((uniqAux_mem t (a :: seen) a).mp hc).2 (List.mem_cons_self a seen)

theorem buildRates_find (g : String → String → ℚ) (target : String) :
    ∀ (currencies : List String) (c : String), c ∈ currencies →
      (buildRates g target currencies).find? (fun p => decide (p.1 = c)) =
        some (c, if c = target then 1 else g target c) := by
  intro currencies
  induction currencies with
  | nil => intro c hc; cases hc
  | cons d t ih =>
    intro c hc
    by_cases hdc : d = c
    · subst hdc
      simp [buildRates]
    · have hct : c ∈ t := by
        rcases List.mem_cons.mp hc with h | h
        · exact absurd h.symm hdc
        · exact h
      have hrec := ih c hct
      simp only [buildRates, List.map_cons] at hrec ⊢
      rw [List.find?_cons_of_neg _ (by simpa using hdc)]
      exact hrec

/-- **C9.** When the `Валюта` column holds at most one distinct non-null
value, `handle_currency_conversion` returns the frame unchanged; otherwise
every row of the result carries the chosen target currency, and its
`Прибыль числом` and `Размер сделки` are the original values divided by the
rate selected for the row's original currency, the target itself getting
rate `1.0` (and a missing currency the dictionary default `1.0`). -/
theorem C9_currency_conversion_spec (chooseTarget : List String → String)
    (getRate : String → String → ℚ) (df : List CRow) :
    ((∀ c1 ∈ df.filterMap CRow.currency, ∀ c2 ∈ df.filterMap CRow.currency,
        c1 = c2) →
      handle_currency_conversion chooseTarget getRate df = df) ∧
    ((∃ c1 ∈ df.filterMap CRow.currency, ∃ c2 ∈ df.filterMap CRow.currency,
        c1 ≠ c2) →
      handle_currency_conversion chooseTarget getRate df =
        df.map (fun r =>
          { r with
              profit := r.profit /
                specRate getRate (chooseTarget (uniqueCurrencies df)) r.currency
              size := r.size /
                specRate getRate (chooseTarget (uniqueCurrencies df)) r.currency
              currency := some (chooseTarget (uniqueCurrencies df)) })) := by
  constructor
  · intro hone
    have hlen : (uniqueCurrencies df).length ≤ 1 := by
      rcases hu : uniqueCurrencies df with _ | ⟨a, _ | ⟨b, t⟩⟩
      · simp
      · simp
      · exfalso
        have hnd := uniqAux_nodup (df.filterMap CRow.currency) []
        rw [uniqueCurrencies] at hu
        rw [hu, List.nodup_cons] at hnd
        have hab : a ≠ b := fun hh => hnd.1 (hh ▸ List.mem_cons_self b t)
        have ha : a ∈ df.filterMap CRow.currency := by
          have : a ∈ uniqAux [] (df.filterMap CRow.currency) := by
            rw [hu]; exact List.mem_cons_self a (b :: t)
          exact ((uniqAux_mem _ _ _).mp this).1
        have hb : b ∈ df.filterMap CRow.currency := by
          have : b ∈ uniqAux [] (df.filterMap CRow.currency) := by
            rw [hu]; exact List.mem_cons.mpr (Or.inr (List.mem_cons_self b t))
          exact ((uniqAux_mem _ _ _).mp this).1
        exact hab (hone a ha b hb)
    simp only [handle_currency_conversion]
    rw [if_pos hlen]
  · rintro ⟨c1, h1, c2, h2, hne⟩
    have hu1 : c1 ∈ uniqueCurrencies df :=
      (uniqAux_mem _ _ _).mpr ⟨h1, List.not_mem_nil c1⟩
    have hu2 : c2 ∈ uniqueCurrencies df :=
      (uniqAux_mem _ _ _).mpr ⟨h2, List.not_mem_nil c2⟩
    have hlen : ¬ (uniqueCurrencies df).length ≤ 1 := by
      intro hle
      rcases hu : uniqueCurrencies df with _ | ⟨a, _ | ⟨b, t⟩⟩
      · rw [hu] at hu1; cases hu1
      · rw [hu] at hu1 hu2
        rcases List.mem_cons.mp hu1 with rfl | h
        · rcases List.mem_cons.mp hu2 with h2e | h2e
          · exact hne h2e.symm
          · cases h2e
        · cases h
      · rw [hu] at hle; simp at hle
    simp only [handle_currency_conversion]
    rw [if_neg hlen]
    apply List.map_congr_left
    intro r hr
    have hrate : rateLookup
        (buildRates getRate (chooseTarget (uniqueCurrencies df)) (uniqueCurrencies df))
        r.currency = specRate getRate (chooseTarget (uniqueCurrencies df)) r.currency := by
      rcases hc : r.currency with _ | c
      · rfl
      · have hcf : c ∈ df.filterMap CRow.currency :=
          List.mem_filterMap.mpr ⟨r, hr, hc⟩
        have hcu : c ∈ uniqueCurrencies df :=
          (uniqAux_mem _ _ _).mpr ⟨hcf, List.not_mem_nil c⟩
        simp only [rateLookup, specRate]
        rw [buildRates_find getRate _ _ c hcu]
    rw [hrate]

/-- Witness for C9: two currencies `USD`/`EUR`, the user picks `USD`, the
oracle rate is `1 USD = 2 EUR`; the `EUR` row's profit and stake are halved. -/
theorem C9_witness :
    handle_currency_conversion (fun _ => "USD") (fun _ _ => 2)
        [⟨some "USD", 10, 1, 0⟩, ⟨some "EUR", 10, 1, 1⟩] =
      [⟨some "USD", 10, 1, 0⟩, ⟨some "USD", 5, (1 : ℚ)/2, 1⟩] := by
  have h := (C9_currency_conversion_spec (fun _ => "USD") (fun _ _ => 2)
      [⟨some "USD", 10, 1, 0⟩, ⟨some "EUR", 10, 1, 1⟩]).2
    ⟨"USD", by decide, "EUR", by decide, by decide⟩
  rw [h]
  have hne := eq_false (show ¬ (("EUR" : String) = "USD") by decide)
  norm_num [specRate, uniqueCurrencies, uniqAux, hne]

/-! ## `_parse_selection` (`src/analyzer/data_processor.py`, lines 70-97)

Selection strings are modelled as character lists.  `int(x)` is modelled for
ASCII strings: optional surrounding whitespace, an optional sign, then
decimal digits with single underscores allowed between digits. -/

/-- Whitespace characters stripped by Python's `int()` (ASCII range). -/
def isPySpace (c : Char) : Bool :=
  decide (c = ' ') || decide (c = '\t') || decide (c = '\n') ||
    decide (c = '\r') || decide (c = '\x0b') || decide (c = '\x0c')

/-- One decimal digit. -/
def digitVal (c : Char) : Option Nat :=
  if '0' ≤ c ∧ c ≤ '9' then some (c.toNat - '0'.toNat) else none

/-- Remaining digits, with single underscores allowed between digits;
`acc` is the value read so far. -/
def digitsAux (acc : Nat) : List Char → Option Nat
  | [] => some acc
  | '_' :: c :: rest =>
    match digitVal c with
    | some d => digitsAux (acc * 10 + d) rest
    | none => none
  | ['_'] => none
  | c :: rest =>
    match digitVal c with
    | some d => digitsAux (acc * 10 + d) rest
    | none => none

/-- An unsigned digit group: must start with a digit. -/
def parseDigits : List Char → Option Nat
  | [] => none
  | c :: rest =>
    match digitVal c with
    | some d => digitsAux d rest
    | none => none

/-- Python's `int()` on a character list. -/
def pyInt (s : List Char) : Option Int :=
  match (s.dropWhile isPySpace).reverse.dropWhile isPySpace |>.reverse with
  | [] => none
  | '+' :: rest => (parseDigits rest).map (fun v => (v : Int))
  | '-' :: rest => (parseDigits rest).map (fun v => -(v : Int))
  | cs => (parseDigits cs).map (fun v => (v : Int))

/-- Python's `str.split(",")`: every comma separates, `n` commas give `n + 1`
items. -/
def splitComma : List Char → List (List Char)
  | [] => [[]]
  | ',' :: t => [] :: splitComma t
  | c :: t =>
    match splitComma t with
    | [] => [[c]]
    | h :: r => (c :: h) :: r

/-- `selection.replace(" ", "").split(",")`. -/
def selItems (selection : List Char) : List (List Char) :=
  splitComma (selection.filter (fun c => ! decide (c = ' ')))

/-- Embeds the loop body of `_parse_selection`; `n` is `len(files)` and
`acc` holds the already `selected_indices` in reverse. -/
def parseSelGo (n : Nat) : List (List Char) → List Nat → Except String (List Nat)
  | [], acc => .ok acc.reverse
  | x :: xs, acc =>
    if x = [] then .error "Некорректный формат выбора файлов"
    else
      match pyInt x with
      | none => .error "invalid literal for int() with base 10"
      | some idx =>
        if idx < 1 ∨ (n : Int) < idx then .error "вне диапазона"
        else
          if (idx - 1).toNat ∈ acc then .error "повторяется"
          else parseSelGo n xs ((idx - 1).toNat :: acc)

/-- Embeds `_parse_selection` over the model of `len(files)`. -/
def parse_selection (selection : List Char) (n : Nat) : Except String (List Nat) :=
  parseSelGo n (selItems selection) []

theorem pyInt_nil : pyInt [] = none := rfl

theorem parseSelGo_ok_iff (n : Nat) : ∀ (items : List (List Char)) (acc : List Nat),
    (∃ l, parseSelGo n items acc = .ok l) ↔
      ((∀ x ∈ items, ∃ v : Int, pyInt x = some v ∧ 1 ≤ v ∧ v ≤ (n : Int)) ∧
       (items.map pyInt).Nodup ∧
       (∀ x ∈ items, ∀ v : Int, pyInt x = some v → (v - 1).toNat ∉ acc)) := by
  intro items
  induction items with
  | nil =>
    intro acc
    simp [parseSelGo]
  | cons x xs ih =>
    intro acc
    by_cases hxe : x = []
    · subst hxe
      simp only [parseSelGo, if_pos rfl]
      constructor
      · rintro ⟨l, hl⟩; cases hl
      · rintro ⟨hgood, -, -⟩
        obtain ⟨v, hv, -⟩ := hgood [] (List.mem_cons_self _ _)
        rw [pyInt_nil] at hv
        cases hv
    · have hstep : parseSelGo n (x :: xs) acc =
          (match pyInt x with
           | none => .error "invalid literal for int() with base 10"
           | some idx =>
             if idx < 1 ∨ (n : Int) < idx then .error "вне диапазона"
             else
               if (idx - 1).toNat ∈ acc then .error "повторяется"
               else parseSelGo n xs ((idx - 1).toNat :: acc)) := by
        simp only [parseSelGo, if_neg hxe]
      rcases hpy : pyInt x with _ | idx
      · simp only [hpy] at hstep
        constructor
        · rintro ⟨l, hl⟩
          rw [hstep] at hl
          cases hl
        · rintro ⟨hgood, -, -⟩
          obtain ⟨v, hv, -⟩ := hgood x (List.mem_cons_self _ _)
          rw [hpy] at hv
          cases hv
      · simp only [hpy] at hstep
        by_cases hrange : idx < 1 ∨ (n : Int) < idx
        · rw [if_pos hrange] at hstep
          constructor
          · rintro ⟨l, hl⟩; rw [hstep] at hl; cases hl
          · rintro ⟨hgood, -, -⟩
            obtain ⟨v, hv, hv1, hv2⟩ := hgood x (List.mem_cons_self _ _)
            rw [hpy] at hv
            injection hv with hvv
            subst hvv
            rcases hrange with h | h <;> omega
        · rw [if_neg hrange] at hstep
          push_neg at hrange
          obtain ⟨h1, h2⟩ := hrange
          by_cases hdup : (idx - 1).toNat ∈ acc
          · rw [if_pos hdup] at hstep
            constructor
            · rintro ⟨l, hl⟩; rw [hstep] at hl; cases hl
            · rintro ⟨-, -, hacc⟩
              exact absurd hdup (hacc x (List.mem_cons_self _ _) idx hpy)
          · rw [if_neg hdup] at hstep
            have hgoal : (∃ l, parseSelGo n (x :: xs) acc = .ok l) ↔
                (∃ l, parseSelGo n xs ((idx - 1).toNat :: acc) = .ok l) := by
              rw [hstep]
            rw [hgoal, ih ((idx - 1).toNat :: acc)]
            constructor
            · rintro ⟨hgood, hnd, hacc⟩
              refine ⟨?_, ?_, ?_⟩
              · intro y hy
                rcases List.mem_cons.mp hy with rfl | hy2
                · exact ⟨idx, hpy, by omega, by omega⟩
                · exact hgood y hy2
              · rw [List.map_cons]
                refine List.nodup_cons.mpr ⟨?_, hnd⟩
                intro hmem
                obtain ⟨y, hy, hyx⟩ := List.mem_map.mp hmem
                have hyidx : pyInt y = some idx := by rw [hyx, hpy]
                exact (hacc y hy idx hyidx) (List.mem_cons_self _ _)
              · intro y hy v hv hmem
                rcases List.mem_cons.mp hy with rfl | hy2
                · rw [hpy] at hv
                  injection hv with hvv
                  subst hvv
                  exact hdup hmem
                · exact (hacc y hy2 v hv) (List.mem_cons.mpr (Or.inr hmem))
            · rintro ⟨hgood, hnd, hacc⟩
              have hnd2 : (pyInt x :: xs.map pyInt).Nodup := by
                rw [← List.map_cons]
                exact hnd
              refine ⟨fun y hy => hgood y (List.mem_cons_of_mem x hy),
                (List.nodup_cons.mp hnd2).2, ?_⟩
              intro y hy v hv hmem
              rcases List.mem_cons.mp hmem with heq | hmem2
              · obtain ⟨v2, hv2, hv21, hv22⟩ := hgood y (List.mem_cons_of_mem x hy)
                rw [hv] at hv2
                injection hv2 with hveq
                subst hveq
                have hvidx : v = idx := by omega
                subst hvidx
                have hheadnotin : pyInt x ∉ xs.map pyInt := (List.nodup_cons.mp hnd2).1
                refine hheadnotin (List.mem_map.mpr ⟨y, hy, ?_⟩)
                rw [hv, hpy]
              · exact (hacc y (List.mem_cons_of_mem x hy) v hv) hmem2

/-- The `pyInt` value corresponding to a returned zero-based index. -/
def idxVal (i : Nat) : Option Int := some ((i : Int) + 1)

theorem parseSelGo_ok_map (n : Nat) : ∀ (items : List (List Char)) (acc : List Nat)
    (l : List Nat), parseSelGo n items acc = .ok l →
      ∃ tail, l = acc.reverse ++ tail ∧
        items.map pyInt = tail.map idxVal := by
  intro items
  induction items with
  | nil =>
    intro acc l hl
    simp only [parseSelGo] at hl
    injection hl with hl2
    exact ⟨[], by simp [hl2.symm]⟩
  | cons x xs ih =>
    intro acc l hl
    by_cases hxe : x = []
    · rw [parseSelGo, if_pos hxe] at hl
      cases hl
    · have hstep := hl
      rw [parseSelGo, if_neg hxe] at hstep
      rcases hpy : pyInt x with _ | idx
      · simp only [hpy] at hstep
        cases hstep
      · simp only [hpy] at hstep
        by_cases hrange : idx < 1 ∨ (n : Int) < idx
        · rw [if_pos hrange] at hstep
          cases hstep
        · rw [if_neg hrange] at hstep
          push_neg at hrange
          obtain ⟨h1, h2⟩ := hrange
          by_cases hdup : (idx - 1).toNat ∈ acc
          · rw [if_pos hdup] at hstep
            cases hstep
          · rw [if_neg hdup] at hstep
            obtain ⟨tail, htl, hmap⟩ := ih ((idx - 1).toNat :: acc) l hstep
            refine ⟨(idx - 1).toNat :: tail, ?_, ?_⟩
            · rw [htl]
              simp
            · have hco : idxVal ((idx - 1).toNat) = some idx := by
                simp only [idxVal, Option.some.injEq]
                omega
              rw [List.map_cons, hpy, List.map_cons, hmap, hco]

/-- **C7.** For every selection string and non-empty file list,
`_parse_selection` either returns a duplicate-free list of zero-based
indices, each below `len(files)`, listing for each comma-separated item (in
order of appearance) the parsed number minus one — or raises `ValueError`;
and it raises exactly when the comma-separated string (after removing
spaces) contains an empty item, an item `int()` cannot parse, a number
outside `1..len(files)`, or a repeated number. -/
theorem C7_parse_selection_spec (selection : List Char) (n : Nat) (hn : 0 < n) :
    (∀ l, parse_selection selection n = .ok l →
        l.Nodup ∧ (∀ i ∈ l, i < n) ∧
        (selItems selection).map pyInt = l.map idxVal) ∧
    ((∃ l, parse_selection selection n = .ok l) ↔
      ¬ ((∃ x ∈ selItems selection, x = [] ∨ pyInt x = none) ∨
         (∃ x ∈ selItems selection, ∃ v : Int,
             pyInt x = some v ∧ (v < 1 ∨ (n : Int) < v)) ∨
         ¬ ((selItems selection).map pyInt).Nodup)) := by
  have hiff := parseSelGo_ok_iff n (selItems selection) []
  constructor
  · intro l hl
    obtain ⟨hgood, hnd, -⟩ := hiff.mp ⟨l, hl⟩
    obtain ⟨tail, htl, hmap⟩ := parseSelGo_ok_map n (selItems selection) [] l hl
    rw [List.reverse_nil, List.nil_append] at htl
    subst htl
    refine ⟨?_, ?_, hmap⟩
    · have hndm : (l.map idxVal).Nodup := by
        rw [← hmap]; exact hnd
      exact hndm.of_map _
    · intro i hi
      have hsome : idxVal i ∈ (selItems selection).map pyInt := by
        rw [hmap]
        exact List.mem_map_of_mem idxVal hi
      obtain ⟨x, hx, hxeq⟩ := List.mem_map.mp hsome
      obtain ⟨v, hv, hv1, hv2⟩ := hgood x hx
      rw [hv, idxVal] at hxeq
      injection hxeq with he
      omega
  · rw [parse_selection, hiff]
    constructor
    · rintro ⟨hgood, hnd, -⟩
      rintro (⟨x, hx, hcase⟩ | ⟨x, hx, v, hv, hrange⟩ | hC)
      · obtain ⟨v, hvv, -, -⟩ := hgood x hx
        rcases hcase with rfl | hnone
        · rw [pyInt_nil] at hvv; cases hvv
        · rw [hnone] at hvv; cases hvv
      · obtain ⟨v2, hv2, h1, h2⟩ := hgood x hx
        rw [hv] at hv2
        injection hv2 with he
        subst he
        rcases hrange with h | h <;> omega
      · exact hC hnd
    · intro hnot
      push_neg at hnot
      obtain ⟨hA, hB, hC⟩ := hnot
      refine ⟨?_, hC, fun x hx v hv => List.not_mem_nil _⟩
      intro x hx
      have hxne := hA x hx
      rcases ho : pyInt x with _ | v
      · exact absurd ho hxne.2
      · have hB2 := hB x hx v ho
        exact ⟨v, rfl, by omega, by omega⟩

/-- Witness for C7: with three files, the selection `"2,1"` succeeds. -/
theorem C7_witness : ∃ l, parse_selection "2,1".data 3 = .ok l :=
  (C7_parse_selection_spec "2,1".data 3 (by decide)).2.mpr (by decide)

/-! ## `calculate_asset_streaks` (`src/analyzer/utils.py`, lines 52-82) and
`calculate_asset_stats` (`src/analyzer/statistics.py`, lines 76-99) -/

/-- A processed trade row as used by the per-asset statistics. -/
structure ATrade where
  asset : String
  time : Nat
  result : String
  profit : ℚ

/-- The `pd.Series` returned by `calculate_asset_streaks`: `Сделок`,
`Винрейт`, `Прибыль`, `Серия_вин`, `Серия_лосс`. -/
structure AssetRow where
  trades : Nat
  winrate : ℚ
  profit : ℚ
  winStreak : Nat
  lossStreak : Nat

/-- The maximal streak extracted from the run groups of the sorted result
column: the code keeps the groups whose second index level equals
`result_type` (`win_streaks` / `loss_streaks`) and takes their maximal size,
`0` when there is none. -/
def maxStreakOf (results : List String) (result_type : String) : Nat :=
  natListMax ((rle results).filterMap
    (fun p => if p.1 = result_type then some p.2 else none))

theorem natListMax_filterMap_eq (t : String) : ∀ gs : List (String × Nat),
    natListMax (gs.filterMap (fun p => if p.1 = t then some p.2 else none)) =
      natListMax (gs.map (fun p => if p.1 = t then p.2 else 0)) := by
  intro gs
  induction gs with
  | nil => rfl
  | cons g gs ih =>
    by_cases h : g.1 = t
    · simp [List.filterMap_cons, h, natListMax, ih]
    · simp [List.filterMap_cons, h, natListMax, ih]

theorem maxStreakOf_eq_longestRun (results : List String) (t : String) :
    maxStreakOf results t = longestRun t results := by
  rw [maxStreakOf, natListMax_filterMap_eq]
  exact calculate_max_streak_eq_longestRun results t

/-- Embeds `calculate_asset_streaks`: the group is sorted by
`Время открытия`, the run groups are computed on the sorted column, and the
aggregates are taken over the sorted group. -/
def calculate_asset_streaks (group : List ATrade) : AssetRow :=
  let g := sortLe (fun a b => decide (a.time ≤ b.time)) group
  { trades := g.length
    winrate := ((g.filter (fun r => decide (r.result = "Win"))).length : ℚ) /
      (g.length : ℚ) * 100
    profit := (g.map ATrade.profit).sum
    winStreak := maxStreakOf (g.map ATrade.result) "Win"
    lossStreak := maxStreakOf (g.map ATrade.result) "Loss" }

/-- `round` half-to-even on rationals (numpy/pandas rounding). -/
def roundHalfEven (q : ℚ) : Int :=
  if q - ⌊q⌋ < 1/2 then ⌊q⌋
  else if 1/2 < q - ⌊q⌋ then ⌊q⌋ + 1
  else if ⌊q⌋ % 2 = 0 then ⌊q⌋ else ⌊q⌋ + 1

/-- pandas `.round(2)`. -/
def round2 (q : ℚ) : ℚ := (roundHalfEven (q * 100) : ℚ) / 100

/-- Lexicographic order on character lists (order of the groupby keys). -/
def charsLe : List Char → List Char → Bool
  | [], _ => true
  | _ :: _, [] => false
  | a :: as, b :: bs => if a = b then charsLe as bs else decide (a < b)

/-- The keys of `df.groupby("Актив")`: distinct assets in sorted order. -/
def assetKeys (df : List ATrade) : List String :=
  sortLe (fun a b => charsLe a.data b.data) (uniqAux [] (df.map ATrade.asset))

/-- Embeds `calculate_asset_stats`: apply `calculate_asset_streaks` to each
asset group, round `Винрейт` and `Прибыль` to two decimals, and sort by
`Винрейт` descending. -/
def calculate_asset_stats (df : List ATrade) : List (String × AssetRow) :=
  let asset_stats := (assetKeys df).map (fun a =>
    let row := calculate_asset_streaks (df.filter (fun r => decide (r.asset = a)))
    (a, { row with winrate := round2 row.winrate, profit := round2 row.profit }))
  sortLe (fun x y => decide (y.2.winrate ≤ x.2.winrate)) asset_stats

/-- One asset, three trades, one win: the exact winrate would be `100/3`. -/
def exDf4 : List ATrade :=
  [⟨"A", 1, "Win", 1⟩, ⟨"A", 2, "Loss", -1⟩, ⟨"A", 3, "Loss", -1⟩]

/-- **C4 counterexample.** `calculate_asset_stats` does not return the exact
per-asset winrate: on `exDf4` the only returned `Винрейт` is `33.33`
(rounded to two decimals by `.round(2)`), not the claimed fraction
`1/3 * 100 = 100/3`. -/
theorem C4_counterexample :
    (calculate_asset_stats exDf4).map (fun p => p.2.winrate) = [3333/100] ∧
    (3333 : ℚ)/100 ≠ 100/3 := by
  constructor
  · have hlw := eq_false (show ¬ (("Loss" : String) = "Win") by decide)
    have hwl := eq_false (show ¬ (("Win" : String) = "Loss") by decide)
    norm_num [calculate_asset_stats, exDf4, assetKeys, uniqAux, sortLe, insertLe,
      calculate_asset_streaks, round2, roundHalfEven, maxStreakOf, rle, natListMax,
      List.filterMap_cons, hlw, hwl]
  · norm_num

theorem calculate_asset_streaks_fields (group : List ATrade) :
    (calculate_asset_streaks group).trades = group.length ∧
    (calculate_asset_streaks group).winrate =
      ((group.filter (fun r => decide (r.result = "Win"))).length : ℚ) /
        (group.length : ℚ) * 100 ∧
    (calculate_asset_streaks group).profit = (group.map ATrade.profit).sum ∧
    (calculate_asset_streaks group).winStreak =
      longestRun "Win"
        ((sortLe (fun a b => decide (a.time ≤ b.time)) group).map ATrade.result) ∧
    (calculate_asset_streaks group).lossStreak =
      longestRun "Loss"
        ((sortLe (fun a b => decide (a.time ≤ b.time)) group).map ATrade.result) := by
  have hperm : (sortLe (fun a b : ATrade => decide (a.time ≤ b.time)) group).Perm group :=
    sortLe_perm _ group
  refine ⟨hperm.length_eq, ?_, ?_, ?_, ?_⟩
  · show ((sortLe (fun a b : ATrade => decide (a.time ≤ b.time)) group).filter
        (fun r => decide (r.result = "Win"))).length /
        ((sortLe (fun a b : ATrade => decide (a.time ≤ b.time)) group).length : ℚ) * 100 = _
    rw [(hperm.filter (fun r => decide (r.result = "Win"))).length_eq, hperm.length_eq]
  · exact (hperm.map ATrade.profit).sum_eq
  · exact maxStreakOf_eq_longestRun _ "Win"
  · exact maxStreakOf_eq_longestRun _ "Loss"

/-- **C4 amended.** For every non-empty group, `calculate_asset_streaks`
returns `Сделок` equal to the group's row count, `Винрейт` equal to the
fraction of `Win` rows times 100, `Прибыль` equal to the profit sum, and
`Серия_вин` / `Серия_лосс` equal to the longest consecutive `Win` / `Loss`
runs after sorting the group ascending by `Время открытия` (`0` when no such
row exists).  `calculate_asset_stats` returns one row per distinct asset
carrying these values with `Винрейт` and `Прибыль` rounded to two decimal
places, sorted by the rounded `Винрейт` in descending order. -/
theorem C4_asset_stats_spec (df group : List ATrade) :
    ((calculate_asset_streaks group).trades = group.length ∧
     (calculate_asset_streaks group).winrate =
       ((group.filter (fun r => decide (r.result = "Win"))).length : ℚ) /
         (group.length : ℚ) * 100 ∧
     (calculate_asset_streaks group).profit = (group.map ATrade.profit).sum ∧
     (calculate_asset_streaks group).winStreak =
       longestRun "Win"
         ((sortLe (fun a b => decide (a.time ≤ b.time)) group).map ATrade.result) ∧
     (calculate_asset_streaks group).lossStreak =
       longestRun "Loss"
         ((sortLe (fun a b => decide (a.time ≤ b.time)) group).map ATrade.result)) ∧
    (∀ a row, (a, row) ∈ calculate_asset_stats df →
        row.trades = (df.filter (fun r => decide (r.asset = a))).length ∧
        row.winrate = round2
          ((((df.filter (fun r => decide (r.asset = a))).filter
              (fun r => decide (r.result = "Win"))).length : ℚ) /
            ((df.filter (fun r => decide (r.asset = a))).length : ℚ) * 100) ∧
        row.profit = round2
          (((df.filter (fun r => decide (r.asset = a))).map ATrade.profit).sum) ∧
        row.winStreak = longestRun "Win"
          ((sortLe (fun a b => decide (a.time ≤ b.time))
            (df.filter (fun r => decide (r.asset = a)))).map ATrade.result) ∧
        row.lossStreak = longestRun "Loss"
          ((sortLe (fun a b => decide (a.time ≤ b.time))
            (df.filter (fun r => decide (r.asset = a)))).map ATrade.result)) ∧
    (∀ a, a ∈ df.map ATrade.asset ↔ ∃ row, (a, row) ∈ calculate_asset_stats df) ∧
    (calculate_asset_stats df).Pairwise (fun x y => y.2.winrate ≤ x.2.winrate) := by
  have htot : ∀ x y : String × AssetRow,
      (decide (y.2.winrate ≤ x.2.winrate) : Bool) = false →
      (decide (x.2.winrate ≤ y.2.winrate) : Bool) = true := by
    intro x y h
    simp only [decide_eq_false_iff_not] at h
    simp only [decide_eq_true_eq]
    exact le_of_not_le h
  have htrans : ∀ x y z : String × AssetRow,
      (decide (y.2.winrate ≤ x.2.winrate) : Bool) = true →
      (decide (z.2.winrate ≤ y.2.winrate) : Bool) = true →
      (decide (z.2.winrate ≤ x.2.winrate) : Bool) = true := by
    intro x y z h1 h2
    simp only [decide_eq_true_eq] at h1 h2 ⊢
    exact le_trans h2 h1
  have hpermS : (calculate_asset_stats df).Perm ((assetKeys df).map (fun a =>
      let row := calculate_asset_streaks (df.filter (fun r => decide (r.asset = a)))
      (a, { row with winrate := round2 row.winrate, profit := round2 row.profit }))) := by
    simp only [calculate_asset_stats]
    exact sortLe_perm _ _
  refine ⟨calculate_asset_streaks_fields group, ?_, ?_, ?_⟩
  · intro a row hmem
    have hmem2 := hpermS.mem_iff.mp hmem
    obtain ⟨a2, ha2, heq⟩ := List.mem_map.mp hmem2
    simp only [Prod.mk.injEq] at heq
    obtain ⟨rfl, hrow⟩ := heq
    obtain ⟨ht, hw, hp, hws, hls⟩ :=
      calculate_asset_streaks_fields (df.filter (fun r => decide (r.asset = a2)))
    rw [← hrow]
    exact ⟨ht, by rw [← hw], by rw [← hp], hws, hls⟩
  · intro a
    constructor
    · intro hmem
      have h1 : a ∈ uniqAux [] (df.map ATrade.asset) :=
        (uniqAux_mem _ _ _).mpr ⟨hmem, List.not_mem_nil a⟩
      have h2 : a ∈ assetKeys df := (sortLe_perm _ _).mem_iff.mpr h1
      refine ⟨_, hpermS.mem_iff.mpr (List.mem_map_of_mem _ h2)⟩
    · rintro ⟨row, hrow⟩
      have hmem2 := hpermS.mem_iff.mp hrow
      obtain ⟨a2, ha2, heq⟩ := List.mem_map.mp hmem2
      simp only [Prod.mk.injEq] at heq
      obtain ⟨rfl, -⟩ := heq
      have h1 : a2 ∈ uniqAux [] (df.map ATrade.asset) :=
        (sortLe_perm _ _).mem_iff.mp ha2
      exact ((uniqAux_mem _ _ _).mp h1).1
  · simp only [calculate_asset_stats]
    exact (sortLe_pairwise htot htrans _).imp (fun h => by simpa using h)

/-- A one-trade frame used as concrete input for the C4 witness. -/
def exDfW : List ATrade := [⟨"A", 1, "Win", 2⟩]

/-- Witness for the amended C4 theorem: on a concrete one-trade frame the
returned row indeed counts one trade for asset `"A"`. -/
theorem C4_witness :
    (⟨1, 100, 2, 1, 0⟩ : AssetRow).trades =
      (exDfW.filter (fun r => decide (r.asset = "A"))).length := by
  have hmem : ("A", (⟨1, 100, 2, 1, 0⟩ : AssetRow)) ∈ calculate_asset_stats exDfW := by
    have hwl := eq_false (show ¬ (("Win" : String) = "Loss") by decide)
    norm_num [calculate_asset_stats, exDfW, assetKeys, uniqAux, sortLe, insertLe,
      calculate_asset_streaks, round2, roundHalfEven, maxStreakOf, rle, natListMax,
      List.filterMap_cons, hwl]
  exact ((C4_asset_stats_spec exDfW []).2.1 "A" ⟨1, 100, 2, 1, 0⟩ hmem).1
